import Mathlib

/-!
# Verification of the ordered-list reconciliation core (`VList`)

Shallow embedding of `src/dom_ruukh/src/vlist.rs`.

The Rust code implements `DOMPatch` for `VList(Vec<KeyedVNodes>)`.  Each
child (`KeyedVNodes`) is an external collaborator accessed through the
per-node contract `render_walk` / `patch` / `remove` / `node`, plus
`Display`.  We model a child as an abstract type `C`, a host-tree node
handle as `N`, the error type (`JsValue`) as `E`, and the host world (the
live DOM plus anything else the children's implementations mutate) as an
explicit state `W` threaded through every call.  A child operation that
takes `&mut self` and returns `Result<(), JsValue>` becomes a function
returning `W × C × Except E Unit`: the new world, the (possibly mutated)
child, and the outcome.  `remove(self)` consumes the child, so it returns
only `W × Except E Unit`.
-/

/-- The per-node contract every child of a `VList` implements
(the `DOMPatch` trait of `KeyedVNodes`, plus its `Display`). -/
structure DOMPatchOps (C N E W : Type) where
  render_walk : C → N → Option N → W → W × C × Except E Unit
  patch : C → Option C → N → Option N → W → W × C × Except E Unit
  remove : C → N → W → W × Except E Unit
  node : C → Option N
  disp : C → String

namespace VList

variable {C N E W : Type}

/-- The loop body of `VList::render_walk`:
```rust
let mut next = next;
for vnode in self.0.iter_mut().rev() {
    vnode.render_walk(parent.clone(), next)?;
    next = vnode.node();
}
```
The recursion processes the tail (the entries to the right) first, then the
head, mirroring `.rev()`.  It returns the final value of the `next`
variable (the anchor left after the head entry was processed) so that
entries further left can pick it up. -/
def renderAux (ops : DOMPatchOps C N E W) (parent : N) :
    List C → Option N → W → W × List C × Except E (Option N)
  | [], next, w => (w, [], Except.ok next)
  | c :: rest, next, w =>
    match renderAux ops parent rest next w with
    | (w1, rest1, Except.error e) => (w1, c :: rest1, Except.error e)
    | (w1, rest1, Except.ok next1) =>
      match ops.render_walk c parent next1 w1 with
      | (w2, c1, Except.error e) => (w2, c1 :: rest1, Except.error e)
      | (w2, c1, Except.ok _) => (w2, c1 :: rest1, Except.ok (ops.node c1))

/-- `VList::render_walk`: runs the loop and returns `Ok(())`, discarding the
final anchor.  The returned list is the (possibly partially) mutated
`self.0`. -/
def render_walk (ops : DOMPatchOps C N E W) (vl : List C) (parent : N)
    (next : Option N) (w : W) : W × List C × Except E Unit :=
  match renderAux ops parent vl next w with
  | (w1, vl1, Except.error e) => (w1, vl1, Except.error e)
  | (w1, vl1, Except.ok _) => (w1, vl1, Except.ok ())

/-- The `old`-present loop of `VList::patch`:
```rust
let old_len = old.0.len();
for (index, vnode) in self.0.iter_mut().enumerate().rev() {
    let old = if index < old_len { Some(old.0.remove(index)) } else { None };
    vnode.patch(old, parent.clone(), next)?;
    next = vnode.node();
}
```
`s` is the index of the head of the remaining new-entry suffix; the
recursion processes the tail first (higher indices), matching
`.enumerate().rev()`, and the current state of `old.0` flows back up.
`Vec::remove(index)` is modelled by `old1[s]?` / `old1.eraseIdx s`; the
Rust call would panic when `index` is out of the vector's current bounds,
which `patchOldAux_spec` shows never happens under the guard
`index < old_len` in any reachable state (there `old1[s]?` is always
`some _`). -/
def patchOldAux (ops : DOMPatchOps C N E W) (parent : N) (old_len : Nat) :
    Nat → List C → List C → Option N → W → W × List C × List C × Except E (Option N)
  | _, [], old, next, w => (w, [], old, Except.ok next)
  | s, c :: rest, old, next, w =>
    match patchOldAux ops parent old_len (s + 1) rest old next w with
    | (w1, rest1, old1, Except.error e) => (w1, c :: rest1, old1, Except.error e)
    | (w1, rest1, old1, Except.ok next1) =>
      let prev := if s < old_len then old1[s]? else none
      let old2 := if s < old_len then old1.eraseIdx s else old1
      match ops.patch c prev parent next1 w1 with
      | (w2, c1, Except.error e) => (w2, c1 :: rest1, old2, Except.error e)
      | (w2, c1, Except.ok _) => (w2, c1 :: rest1, old2, Except.ok (ops.node c1))

/-- The `old`-absent loop of `VList::patch`:
```rust
for vnode in self.0.iter_mut().rev() {
    vnode.patch(None, parent.clone(), next)?;
    next = vnode.node();
}
``` -/
def patchNoneAux (ops : DOMPatchOps C N E W) (parent : N) :
    List C → Option N → W → W × List C × Except E (Option N)
  | [], next, w => (w, [], Except.ok next)
  | c :: rest, next, w =>
    match patchNoneAux ops parent rest next w with
    | (w1, rest1, Except.error e) => (w1, c :: rest1, Except.error e)
    | (w1, rest1, Except.ok next1) =>
      match ops.patch c none parent next1 w1 with
      | (w2, c1, Except.error e) => (w2, c1 :: rest1, Except.error e)
      | (w2, c1, Except.ok _) => (w2, c1 :: rest1, Except.ok (ops.node c1))

/-- `VList::remove`:
```rust
for vnode in self.0 { vnode.remove(parent.clone())?; }
Ok(())
```
Left-to-right over the owned entries. -/
def remove (ops : DOMPatchOps C N E W) : List C → N → W → W × Except E Unit
  | [], _, w => (w, Except.ok ())
  | c :: rest, parent, w =>
    match ops.remove c parent w with
    | (w1, Except.error e) => (w1, Except.error e)
    | (w1, Except.ok _) => remove ops rest parent w1

/-- `VList::patch`: dispatch on `old`, then (in the `Some` branch) release
whatever remains of `old` via `old.remove(parent)?`. -/
def patch (ops : DOMPatchOps C N E W) (vl : List C) (old : Option (List C))
    (parent : N) (next : Option N) (w : W) : W × List C × Except E Unit :=
  match old with
  | some o =>
    match patchOldAux ops parent o.length 0 vl o next w with
    | (w1, vl1, _, Except.error e) => (w1, vl1, Except.error e)
    | (w1, vl1, old1, Except.ok _) =>
      match remove ops old1 parent w1 with
      | (w2, Except.error e) => (w2, vl1, Except.error e)
      | (w2, Except.ok _) => (w2, vl1, Except.ok ())
  | none =>
    match patchNoneAux ops parent vl next w with
    | (w1, vl1, Except.error e) => (w1, vl1, Except.error e)
    | (w1, vl1, Except.ok _) => (w1, vl1, Except.ok ())

/-- `VList::node`: `self.0.get(0).and_then(|first| first.node())`. -/
def node (ops : DOMPatchOps C N E W) (vl : List C) : Option N :=
  vl[0]?.bind ops.node

/-- `Display for VList`: write each entry's display in order, no
separators. -/
def display (ops : DOMPatchOps C N E W) : List C → String
  | [] => ""
  | c :: rest => ops.disp c ++ display ops rest

/-- Reference recursion for the positional pairing the spec describes for
`patch` with `old` present: the entry at absolute index `s` of the new list
is patched against `O[s]?` — `some` of the entry that originally occupied
position `s` of the old list when `s` is within its original bounds, `none`
otherwise — and `O` itself is never mutated. -/
def patchPositional (ops : DOMPatchOps C N E W) (parent : N) (O : List C) :
    Nat → List C → Option N → W → W × List C × Except E (Option N)
  | _, [], next, w => (w, [], Except.ok next)
  | s, c :: rest, next, w =>
    match patchPositional ops parent O (s + 1) rest next w with
    | (w1, rest1, Except.error e) => (w1, c :: rest1, Except.error e)
    | (w1, rest1, Except.ok next1) =>
      match ops.patch c O[s]? parent next1 w1 with
      | (w2, c1, Except.error e) => (w2, c1 :: rest1, Except.error e)
      | (w2, c1, Except.ok _) => (w2, c1 :: rest1, Except.ok (ops.node c1))

/-- The per-node contract with `render_walk` replaced by `patch` against no
previous node — the transformation the `old = None` branch of
`VList::patch` applies to the walk. -/
def patchAsRenderOps (ops : DOMPatchOps C N E W) : DOMPatchOps C N E W :=
  { ops with render_walk := fun c p nx w => ops.patch c none p nx w }

/-- Trace events for the instrumented instantiations of the per-node
contract used by the concrete theorems below. -/
inductive TraceEv where
  | renderEv (self : Nat) (anchor : Option Nat)
  | patchEv (self : Nat) (prev : Option Nat)
  | removeEv (self : Nat)
deriving DecidableEq

/-- Instrumented contract instance: children are `Nat` ids, host nodes are
`Nat`, the world is the list of per-node calls made so far.  Every call
succeeds and appends its event; `node` reports the child's own id. -/
def traceOps : DOMPatchOps Nat Nat Unit (List TraceEv) where
  render_walk := fun c _ nx w => (w ++ [TraceEv.renderEv c nx], c, Except.ok ())
  patch := fun c prev _ _ w => (w ++ [TraceEv.patchEv c prev], c, Except.ok ())
  remove := fun c _ w => (w ++ [TraceEv.removeEv c], Except.ok ())
  node := fun c => some c
  disp := fun _ => ""

/-- Contract instance for anchor observations: a child is an id paired with
whether it renders a host node; `render_walk`/`patch` record the anchor the
child was handed, and `node` is `some id` or `none` according to the
flag. -/
def anchorOps : DOMPatchOps (Nat × Bool) Nat Unit (List (Nat × Option Nat)) where
  render_walk := fun c _ nx w => (w ++ [(c.1, nx)], c, Except.ok ())
  patch := fun c _ _ nx w => (w ++ [(c.1, nx)], c, Except.ok ())
  remove := fun _ _ w => (w, Except.ok ())
  node := fun c => if c.2 then some c.1 else none
  disp := fun _ => ""

/-- Contract instance in which the child with id 13 fails every operation
with error code 42 while every other child succeeds and logs its id. -/
def failOps : DOMPatchOps Nat Nat Nat (List Nat) where
  render_walk := fun c _ _ w =>
    if c = 13 then (w, c, Except.error 42) else (w ++ [c], c, Except.ok ())
  patch := fun c _ _ _ w =>
    if c = 13 then (w, c, Except.error 42) else (w ++ [c], c, Except.ok ())
  remove := fun c _ w =>
    if c = 13 then (w, Except.error 42) else (w ++ [c], Except.ok ())
  node := fun c => some c
  disp := fun _ => ""

/-- Contract instance whose world records exactly the children whose
`remove` has been invoked, in invocation order. -/
def removeTraceOps (C N : Type) : DOMPatchOps C N Unit (List C) where
  render_walk := fun c _ _ w => (w, c, Except.ok ())
  patch := fun c _ _ _ w => (w, c, Except.ok ())
  remove := fun c _ w => (w ++ [c], Except.ok ())
  node := fun _ => none
  disp := fun _ => ""

/-- Modelled from the spec: the serialized form of the two external node
kinds appearing in the display example (`VText` and a childless `VElement`
live outside this fragment).  A text node displays as its text; a childless
element such as `input` displays as its opening tag only, per the unit test
`should_display_a_list_of_vnodes`. -/
inductive VNodeM where
  | text (s : String)
  | childless (tag : String)

/-- Modelled from the spec: the display of one such node. -/
def VNodeM.toStr : VNodeM → String
  | VNodeM.text s => s
  | VNodeM.childless t => "<" ++ t ++ ">"

/-- Contract instance supplying only the modelled display. -/
def displayOps : DOMPatchOps VNodeM Nat Unit Unit where
  render_walk := fun c _ _ w => (w, c, Except.ok ())
  patch := fun c _ _ _ w => (w, c, Except.ok ())
  remove := fun _ _ w => (w, Except.ok ())
  node := fun _ => none
  disp := VNodeM.toStr

/-- The patch-call trace `traceOps` is expected to produce for a new list
whose head sits at absolute index `s`, against the original old list `O`:
indices are visited right to left, and the entry `c` at index `s` is
recorded against `O[s]?`. -/
def expPatchTrace (O : List Nat) : Nat → List Nat → List TraceEv
  | _, [] => []
  | s, c :: rest => expPatchTrace O (s + 1) rest ++ [TraceEv.patchEv c O[s]?]

/-- The old entries a trace shows as consumed: those passed as `some prev`
to some patch call, in the order of the calls. -/
def consumedPrevs : List TraceEv → List Nat
  | [] => []
  | TraceEv.patchEv _ (some p) :: rest => p :: consumedPrevs rest
  | _ :: rest => consumedPrevs rest

/-- Decomposition of the render walk at an arbitrary position: the entries
of `l₂` (to the right) are processed first, and the anchor produced by
their processing is the anchor handed to the traversal of `l₁`. -/
theorem renderAux_append (ops : DOMPatchOps C N E W) (parent : N)
    (l₁ l₂ : List C) (next : Option N) (w : W) :
    renderAux ops parent (l₁ ++ l₂) next w =
      match renderAux ops parent l₂ next w with
      | (w1, l₂', Except.error e) => (w1, l₁ ++ l₂', Except.error e)
      | (w1, l₂', Except.ok next1) =>
        match renderAux ops parent l₁ next1 w1 with
        | (w2, l₁', r) => (w2, l₁' ++ l₂', r) := by
  induction l₁ generalizing next w with
  | nil =>
    rcases h : renderAux ops parent l₂ next w with ⟨w1, l₂', r⟩
    cases r <;> simp [renderAux, h]
  | cons c l₁ ih =>
    simp only [List.cons_append, renderAux]
    simp only [List.append_eq]
    rw [ih]
    rcases h : renderAux ops parent l₂ next w with ⟨w1, l₂', r⟩
    cases r with
    | error e => simp
    | ok next1 =>
      rcases h2 : renderAux ops parent l₁ next1 w1 with ⟨w2, l₁', r2⟩
      cases r2 with
      | error e => simp [h2]
      | ok nx2 =>
        rcases h3 : ops.render_walk c parent nx2 w2 with ⟨w3, c1, r3⟩
        cases r3 <;> simp [h2, h3]

/-- When the walk over `c :: l` succeeds, the resulting list starts with the
updated head `c1` and the anchor it propagates further left is exactly
`ops.node c1` — whatever that is, `none` included. -/
theorem renderAux_cons_ok (ops : DOMPatchOps C N E W) (parent : N)
    (c : C) (l : List C) (next : Option N) (w : W) (w1 : W) (cl : List C)
    (next1 : Option N)
    (h : renderAux ops parent (c :: l) next w = (w1, cl, Except.ok next1)) :
    ∃ c1 l1, cl = c1 :: l1 ∧ next1 = ops.node c1 := by
  rcases h0 : renderAux ops parent l next w with ⟨wa, la, ra⟩
  cases ra with
  | error e => simp [renderAux, h0] at h
  | ok nxa =>
    rcases h1 : ops.render_walk c parent nxa wa with ⟨wb, cb, rb⟩
    cases rb with
    | error e => simp [renderAux, h0, h1] at h
    | ok u =>
      simp [renderAux, h0, h1] at h
      exact ⟨cb, la, h.2.1.symm, h.2.2.symm⟩

/-- Main invariant of the `old`-present traversal: running `patchOldAux`
on the original old list `O` (whose length is the `old_len` captured
before the loop) agrees with the positional reference `patchPositional` in
world, updated entries, and outcome; and when it succeeds, the state the
old list has been whittled down to is exactly
`O.take s ++ O.drop (s + l.length)` — the original entries outside the
range of indices that were traversed. -/
theorem patchOldAux_spec (ops : DOMPatchOps C N E W) (parent : N) (O : List C)
    (l : List C) (s : Nat) (next : Option N) (w : W) :
    ∃ ol,
      patchOldAux ops parent O.length s l O next w =
        ((patchPositional ops parent O s l next w).1,
         (patchPositional ops parent O s l next w).2.1, ol,
         (patchPositional ops parent O s l next w).2.2) ∧
      ∀ nx, (patchPositional ops parent O s l next w).2.2 = Except.ok nx →
        ol = O.take s ++ O.drop (s + l.length) := by
  induction l generalizing s next w with
  | nil =>
    refine ⟨O, by simp [patchOldAux, patchPositional], fun nx _ => ?_⟩
    simp
  | cons c rest ih =>
    obtain ⟨ol1, h1, h2⟩ := ih (s + 1) next w
    rcases hp : patchPositional ops parent O (s + 1) rest next w with ⟨w1, rest1, r1⟩
    rw [hp] at h1 h2
    cases r1 with
    | error e =>
      have hpc : patchPositional ops parent O s (c :: rest) next w =
          (w1, c :: rest1, Except.error e) := by
        simp [patchPositional, hp]
      refine ⟨ol1, ?_, fun nx hx => ?_⟩
      · simp [patchOldAux, h1, hpc]
      · rw [hpc] at hx
        simp at hx
    | ok next1 =>
      have hol1 : ol1 = O.take (s + 1) ++ O.drop (s + 1 + rest.length) :=
        h2 next1 rfl
      have hprev : (if s < O.length then ol1[s]? else none) = O[s]? := by
        by_cases hs : s < O.length
        · rw [if_pos hs, hol1,
            List.getElem?_append_left (by rw [List.length_take]; omega),
            List.getElem?_take_of_lt (Nat.lt_succ_self s)]
        · rw [if_neg hs, eq_comm, List.getElem?_eq_none (by omega)]
      have hold2 : (if s < O.length then ol1.eraseIdx s else ol1) =
          O.take s ++ O.drop (s + (rest.length + 1)) := by
        have hidx : s + 1 + rest.length = s + (rest.length + 1) := by omega
        by_cases hs : s < O.length
        · rw [if_pos hs, hol1, List.eraseIdx_eq_take_drop_succ,
            List.take_append_of_le_length (by rw [List.length_take]; omega),
            List.take_take, Nat.min_eq_left (Nat.le_succ s),
            List.drop_left' (by rw [List.length_take]; omega), hidx]
        · rw [if_neg hs, hol1, hidx,
            List.take_of_length_le (by omega), List.take_of_length_le (by omega)]
      rcases hq : ops.patch c O[s]? parent next1 w1 with ⟨w2, c1, r2⟩
      have hlhs : patchOldAux ops parent O.length s (c :: rest) O next w =
          (match (w2, c1, r2) with
           | (w2, c1, Except.error e) =>
             (w2, c1 :: rest1, O.take s ++ O.drop (s + (rest.length + 1)),
              Except.error e)
           | (w2, c1, Except.ok _) =>
             (w2, c1 :: rest1, O.take s ++ O.drop (s + (rest.length + 1)),
              Except.ok (ops.node c1))) := by
        simp only [patchOldAux, h1]
        rw [hprev, hold2, hq]
      have hpc : patchPositional ops parent O s (c :: rest) next w =
          (match (w2, c1, r2) with
           | (w2, c1, Except.error e) => (w2, c1 :: rest1, Except.error e)
           | (w2, c1, Except.ok _) => (w2, c1 :: rest1, Except.ok (ops.node c1))) := by
        simp only [patchPositional, hp]
        rw [hq]
      cases r2 with
      | error e =>
        refine ⟨O.take s ++ O.drop (s + (rest.length + 1)), ?_, fun nx hx => ?_⟩
        · rw [hlhs, hpc]
        · rw [hpc] at hx
          simp at hx
      | ok u =>
        refine ⟨O.take s ++ O.drop (s + (rest.length + 1)), ?_, fun nx _ => ?_⟩
        · rw [hlhs, hpc]
        · simp

/-- The `old = None` loop of `patch` is the render walk performed with each
entry's `patch(None, …)` in place of its `render_walk`. -/
theorem patchNoneAux_eq_renderAux (ops : DOMPatchOps C N E W) (parent : N)
    (l : List C) (next : Option N) (w : W) :
    patchNoneAux ops parent l next w =
      renderAux (patchAsRenderOps ops) parent l next w := by
  induction l generalizing next w with
  | nil => simp [patchNoneAux, renderAux]
  | cons c rest ih =>
    simp only [patchNoneAux, renderAux, ih, patchAsRenderOps]

/-- Sequencing of `VList::remove` over an appended list: the left part runs
first; only if it fully succeeds does the right part run. -/
theorem remove_append (ops : DOMPatchOps C N E W) (l₁ l₂ : List C)
    (parent : N) (w : W) :
    remove ops (l₁ ++ l₂) parent w =
      match remove ops l₁ parent w with
      | (w1, Except.error e) => (w1, Except.error e)
      | (w1, Except.ok _) => remove ops l₂ parent w1 := by
  induction l₁ generalizing w with
  | nil => simp [remove]
  | cons c l₁ ih =>
    simp only [List.cons_append, remove]
    rcases h : ops.remove c parent w with ⟨w1, r⟩
    cases r <;> simp [ih]

/-- If the traversal of the right-hand suffix of the new list fails, the
whole `old`-present traversal returns that very failure: same world, same
error, same old-list state, and the entries of `l₁` (which would have been
processed afterwards, being further left) are untouched. -/
theorem patchOldAux_error_append (ops : DOMPatchOps C N E W) (parent : N)
    (old_len s : Nat) (l₁ l₂ : List C) (old : List C) (next : Option N) (w : W)
    (w1 : W) (l₂' old1 : List C) (e : E)
    (h : patchOldAux ops parent old_len (s + l₁.length) l₂ old next w =
      (w1, l₂', old1, Except.error e)) :
    patchOldAux ops parent old_len s (l₁ ++ l₂) old next w =
      (w1, l₁ ++ l₂', old1, Except.error e) := by
  induction l₁ generalizing s with
  | nil =>
    simpa using h
  | cons c l₁ ih =>
    have hs : s + (c :: l₁).length = (s + 1) + l₁.length := by
      simp [Nat.add_comm, Nat.add_assoc, Nat.add_left_comm]
    rw [hs] at h
    have := ih (s := s + 1) h
    simp only [List.cons_append, patchOldAux, List.append_eq, this]

/-- A failing entry in the middle of the render walk: the suffix `l₂` to
its right succeeded, the entry itself fails, and the whole walk returns
exactly that failure — world as the failing call left it, error unchanged,
entries of `l₁` untouched. -/
theorem renderAux_error_mid (ops : DOMPatchOps C N E W) (parent : N)
    (l₁ : List C) (c : C) (l₂ : List C) (next : Option N) (w w1 : W)
    (l₂' : List C) (next1 : Option N) (w2 : W) (c1 : C) (e : E)
    (h1 : renderAux ops parent l₂ next w = (w1, l₂', Except.ok next1))
    (h2 : ops.render_walk c parent next1 w1 = (w2, c1, Except.error e)) :
    renderAux ops parent (l₁ ++ c :: l₂) next w =
      (w2, l₁ ++ c1 :: l₂', Except.error e) := by
  have hc : renderAux ops parent (c :: l₂) next w =
      (w2, c1 :: l₂', Except.error e) := by
    simp [renderAux, h1, h2]
  rw [renderAux_append, hc]

/-- Like `renderAux_error_mid`, for the `old = None` branch of `patch`. -/
theorem patchNoneAux_error_mid (ops : DOMPatchOps C N E W) (parent : N)
    (l₁ : List C) (c : C) (l₂ : List C) (next : Option N) (w w1 : W)
    (l₂' : List C) (next1 : Option N) (w2 : W) (c1 : C) (e : E)
    (h1 : patchNoneAux ops parent l₂ next w = (w1, l₂', Except.ok next1))
    (h2 : ops.patch c none parent next1 w1 = (w2, c1, Except.error e)) :
    patchNoneAux ops parent (l₁ ++ c :: l₂) next w =
      (w2, l₁ ++ c1 :: l₂', Except.error e) := by
  rw [patchNoneAux_eq_renderAux] at h1 ⊢
  exact renderAux_error_mid _ _ _ _ _ _ _ _ _ _ _ _ _ h1 h2

/-- Like `renderAux_cons_ok`, for the `old = None` branch of `patch`. -/
theorem patchNoneAux_cons_ok (ops : DOMPatchOps C N E W) (parent : N)
    (c : C) (l : List C) (next : Option N) (w : W) (w1 : W) (cl : List C)
    (next1 : Option N)
    (h : patchNoneAux ops parent (c :: l) next w = (w1, cl, Except.ok next1)) :
    ∃ c1 l1, cl = c1 :: l1 ∧ next1 = ops.node c1 := by
  rw [patchNoneAux_eq_renderAux] at h
  have := renderAux_cons_ok (patchAsRenderOps ops) parent c l next w w1 cl next1 h
  simpa [patchAsRenderOps] using this

/-- Like `renderAux_cons_ok`, for the `old`-present branch of `patch`. -/
theorem patchOldAux_cons_ok (ops : DOMPatchOps C N E W) (parent : N)
    (old_len s : Nat) (c : C) (l old : List C) (next : Option N) (w : W)
    (w1 : W) (cl ol : List C) (next1 : Option N)
    (h : patchOldAux ops parent old_len s (c :: l) old next w =
      (w1, cl, ol, Except.ok next1)) :
    ∃ c1 l1, cl = c1 :: l1 ∧ next1 = ops.node c1 := by
  rcases h0 : patchOldAux ops parent old_len (s + 1) l old next w with ⟨wa, la, ola, ra⟩
  cases ra with
  | error e => simp [patchOldAux, h0] at h
  | ok nxa =>
    rcases h1 : ops.patch c (if s < old_len then ola[s]? else none) parent nxa wa
      with ⟨wb, cb, rb⟩
    cases rb with
    | error e => simp [patchOldAux, h0, h1] at h
    | ok u =>
      simp [patchOldAux, h0, h1] at h
      exact ⟨cb, la, h.2.1.symm, h.2.2.2.symm⟩

/-- Closed form of the positional reference under `traceOps`: it records
exactly the expected patch events and succeeds with the head entry's node
(or the incoming anchor for an empty list). -/
theorem patchPositional_trace (O : List Nat) (parent : Nat) (l : List Nat)
    (s : Nat) (next : Option Nat) (w : List TraceEv) :
    patchPositional traceOps parent O s l next w =
      (w ++ expPatchTrace O s l, l,
       Except.ok (match l with | [] => next | c :: _ => some c)) := by
  induction l generalizing s next w with
  | nil => simp [patchPositional, expPatchTrace]
  | cons c rest ih =>
    simp only [patchPositional, ih, expPatchTrace]
    cases rest <;> simp [traceOps, List.append_assoc]

/-- Closed form of the `old`-present traversal under `traceOps`. -/
theorem patchOldAux_trace (vl O : List Nat) (parent : Nat) (next : Option Nat)
    (w : List TraceEv) :
    patchOldAux traceOps parent O.length 0 vl O next w =
      (w ++ expPatchTrace O 0 vl, vl, O.drop vl.length,
       Except.ok (match vl with | [] => next | c :: _ => some c)) := by
  obtain ⟨ol, h, hs⟩ := patchOldAux_spec traceOps parent O vl 0 next w
  rw [patchPositional_trace] at h hs
  cases vl with
  | nil =>
    have hol := hs next rfl
    rw [h, hol]
    simp
  | cons c rest =>
    have hol := hs (some c) rfl
    rw [h, hol]
    simp

/-- Closed form of `VList::remove` under `traceOps`: one removal event per
entry, in order. -/
theorem remove_trace (l : List Nat) (parent : Nat) (w : List TraceEv) :
    remove traceOps l parent w = (w ++ l.map TraceEv.removeEv, Except.ok ()) := by
  induction l generalizing w with
  | nil => simp [remove]
  | cons c rest ih =>
    have hr : traceOps.remove c parent w = (w ++ [TraceEv.removeEv c], Except.ok ()) := rfl
    simp only [remove, hr]
    rw [ih]
    simp [List.append_assoc]

/-- `consumedPrevs` distributes over trace concatenation. -/
theorem consumedPrevs_append (t₁ t₂ : List TraceEv) :
    consumedPrevs (t₁ ++ t₂) = consumedPrevs t₁ ++ consumedPrevs t₂ := by
  induction t₁ with
  | nil => simp [consumedPrevs]
  | cons e t ih =>
    cases e with
    | renderEv a b => simp [consumedPrevs, ih]
    | patchEv a p => cases p <;> simp [consumedPrevs, ih]
    | removeEv a => simp [consumedPrevs, ih]

/-- The expected trace consumes, as `some prev`, exactly the original old
entries at the indices the traversal visits and that exist in `O` — i.e.
`(O.drop s).take l.length`, in right-to-left visiting order. -/
theorem consumedPrevs_expPatchTrace (O : List Nat) (l : List Nat) (s : Nat) :
    consumedPrevs (expPatchTrace O s l) = ((O.drop s).take l.length).reverse := by
  induction l generalizing s with
  | nil => simp [expPatchTrace, consumedPrevs]
  | cons c rest ih =>
    simp only [expPatchTrace, consumedPrevs_append, ih]
    by_cases hs : s < O.length
    · rw [List.drop_eq_getElem_cons hs, List.length_cons, List.take_succ_cons,
        List.reverse_cons, List.getElem?_eq_getElem hs]
      simp [consumedPrevs]
    · rw [List.drop_of_length_le (by omega), List.drop_of_length_le (by omega)]
      simp [consumedPrevs, List.getElem?_eq_none (l := O) (by omega : O.length ≤ s)]

/-- `List.foldl` over string concatenation factors out its accumulator. -/
theorem string_foldl_append (l : List String) (x : String) :
    l.foldl (fun r s => r ++ s) x = x ++ l.foldl (fun r s => r ++ s) "" := by
  induction l generalizing x with
  | nil => simp
  | cons a l ih =>
    simp only [List.foldl_cons]
    rw [ih (x ++ a), ih ("" ++ a), String.empty_append, String.append_assoc]

/-- `String.join` of a nonempty list peels off its head. -/
theorem string_join_cons (a : String) (l : List String) :
    String.join (a :: l) = a ++ String.join l := by
  show List.foldl (fun r s => r ++ s) ("" ++ a) l =
    a ++ List.foldl (fun r s => r ++ s) "" l
  rw [string_foldl_append, String.empty_append]

/-- C1 counterexample: rendering the list `[(0,true),(1,false),(2,true)]`
under `anchorOps` (entry 1 renders nothing), entry 2 is handed the list's
anchor `some 99` and entry 1 is handed `some 2`, but entry 0 is handed
`none` — entry 1's own `node()` — and not the kept previous anchor `some 2`
that the claim predicts: `next = vnode.node()` replaces the anchor
unconditionally. -/
theorem render_walk_keeps_anchor_cex :
    render_walk anchorOps [(0, true), (1, false), (2, true)] 7 (some 99) [] =
      ([(2, some 99), (1, some 2), (0, none)],
       [(0, true), (1, false), (2, true)], Except.ok ()) ∧
    ((0 : Nat), (none : Option Nat)) ≠ ((0 : Nat), some 2) :=
  ⟨rfl, by decide⟩

/-- C1 (amended): in `render_walk` — and likewise in both patch
traversals — after an entry is processed successfully, the anchor passed on
to the entries to its left is exactly the just-processed entry's own
`node()`, unconditionally: when the entry rendered nothing the anchor
becomes `none`; the previous anchor is not kept. -/
theorem render_walk_anchor_threading (C N E W : Type)
    (ops : DOMPatchOps C N E W) (parent : N) :
    (∀ (l₁ l₂ : List C) (next : Option N) (w w1 : W) (l₂' : List C)
       (next1 : Option N),
      renderAux ops parent l₂ next w = (w1, l₂', Except.ok next1) →
      renderAux ops parent (l₁ ++ l₂) next w =
        ((renderAux ops parent l₁ next1 w1).1,
         (renderAux ops parent l₁ next1 w1).2.1 ++ l₂',
         (renderAux ops parent l₁ next1 w1).2.2)) ∧
    (∀ (c : C) (l : List C) (next : Option N) (w w1 : W) (cl : List C)
       (next1 : Option N),
      renderAux ops parent (c :: l) next w = (w1, cl, Except.ok next1) →
      ∃ c1 l1, cl = c1 :: l1 ∧ next1 = ops.node c1) ∧
    (∀ (old_len s : Nat) (c : C) (l old : List C) (next : Option N) (w w1 : W)
       (cl ol : List C) (next1 : Option N),
      patchOldAux ops parent old_len s (c :: l) old next w =
        (w1, cl, ol, Except.ok next1) →
      ∃ c1 l1, cl = c1 :: l1 ∧ next1 = ops.node c1) ∧
    (∀ (c : C) (l : List C) (next : Option N) (w w1 : W) (cl : List C)
       (next1 : Option N),
      patchNoneAux ops parent (c :: l) next w = (w1, cl, Except.ok next1) →
      ∃ c1 l1, cl = c1 :: l1 ∧ next1 = ops.node c1) := by
  refine ⟨fun l₁ l₂ next w w1 l₂' next1 h => ?_,
          fun c l next w w1 cl next1 h =>
            renderAux_cons_ok ops parent c l next w w1 cl next1 h,
          fun old_len s c l old next w w1 cl ol next1 h =>
            patchOldAux_cons_ok ops parent old_len s c l old next w w1 cl ol next1 h,
          fun c l next w w1 cl next1 h =>
            patchNoneAux_cons_ok ops parent c l next w w1 cl next1 h⟩
  rw [renderAux_append, h]

/-- C1 witness: the amended threading at a concrete input — entry `(1,
false)` renders nothing, so the entries to its left are walked with anchor
`none`. -/
theorem render_walk_anchor_threading_witness :
    renderAux anchorOps 7 [(1, false)] (some 5) [] =
      ([(1, some 5)], [(1, false)], Except.ok none) ∧
    renderAux anchorOps 7 ([(0, true)] ++ [(1, false)]) (some 5) [] =
      ((renderAux anchorOps 7 [(0, true)] none [(1, some 5)]).1,
       (renderAux anchorOps 7 [(0, true)] none [(1, some 5)]).2.1 ++ [(1, false)],
       (renderAux anchorOps 7 [(0, true)] none [(1, some 5)]).2.2) :=
  ⟨rfl,
   (render_walk_anchor_threading (Nat × Bool) Nat Unit (List (Nat × Option Nat))
     anchorOps 7).1 [(0, true)] [(1, false)] (some 5) [] [(1, some 5)]
     [(1, false)] none rfl⟩

/-- C2: with `old` present the pairing is positional: the destructive
`Vec::remove`-based traversal (`patchOldAux`, with `old_len` the old list's
original length) agrees in world, updated entries, and outcome with the
reference traversal that hands the new entry at absolute index `i` the
entry that originally occupied position `i` of the old list — `some` of it
when `i` is within the old list's original bounds, `none` beyond — for
every contract instance, every pair of lists, and every starting index. -/
theorem patch_positional_pairing (C N E W : Type) (ops : DOMPatchOps C N E W)
    (parent : N) (O l : List C) (s : Nat) (next : Option N) (w : W) :
    (patchOldAux ops parent O.length s l O next w).1 =
      (patchPositional ops parent O s l next w).1 ∧
    (patchOldAux ops parent O.length s l O next w).2.1 =
      (patchPositional ops parent O s l next w).2.1 ∧
    (patchOldAux ops parent O.length s l O next w).2.2.2 =
      (patchPositional ops parent O s l next w).2.2 := by
  obtain ⟨ol, h, _⟩ := patchOldAux_spec ops parent O l s next w
  rw [h]
  exact ⟨rfl, rfl, rfl⟩

/-- C3: when the `old`-present traversal of `patch` succeeds, the entries
remaining in `old` are exactly the original old entries at positions
`≥ vl.length`, in their original order, and `patch` finishes by invoking
`VList.remove` — which calls each contained entry's own `remove`, left to
right — on precisely that leftover. -/
theorem patch_shrink_cleanup (C N E W : Type) (ops : DOMPatchOps C N E W)
    (vl O : List C) (parent : N) (next : Option N) (w w1 : W)
    (vl1 ol : List C) (nx : Option N)
    (h : patchOldAux ops parent O.length 0 vl O next w =
      (w1, vl1, ol, Except.ok nx)) :
    ol = O.drop vl.length ∧
    patch ops vl (some O) parent next w =
      (match remove ops (O.drop vl.length) parent w1 with
       | (w2, Except.error e) => (w2, vl1, Except.error e)
       | (w2, Except.ok _) => (w2, vl1, Except.ok ())) := by
  obtain ⟨ol', hspec, hsucc⟩ := patchOldAux_spec ops parent O vl 0 next w
  rw [h] at hspec
  have hr : Except.ok nx = (patchPositional ops parent O 0 vl next w).2.2 :=
    congrArg (fun t => t.2.2.2) hspec
  have holol : ol = ol' := congrArg (fun t => t.2.2.1) hspec
  have hol : ol = O.drop vl.length := by
    rw [holol, hsucc nx hr.symm]
    simp
  refine ⟨hol, ?_⟩
  simp only [patch, h, hol]

/-- C3 witness: patching new list `[5]` against old `[10, 20, 30]` leaves
`[20, 30]` — the old entries at positions `≥ 1` — for the cleanup. -/
theorem patch_shrink_cleanup_witness :
    patchOldAux traceOps 9 ([10, 20, 30] : List Nat).length 0 [5] [10, 20, 30]
        none [] =
      ([TraceEv.patchEv 5 (some 10)], [5], [20, 30], Except.ok (some 5)) ∧
    ([20, 30] : List Nat) = ([10, 20, 30] : List Nat).drop [5].length :=
  ⟨rfl,
   (patch_shrink_cleanup Nat Nat Unit (List TraceEv) traceOps [5] [10, 20, 30]
     9 none [] [TraceEv.patchEv 5 (some 10)] [5] [20, 30] (some 5) rfl).1⟩

/-- C4: the render walk is right to left: for a list `l ++ [c]` the
rightmost entry `c` is processed first and is handed the list's own `next`
as its anchor; only then are the remaining entries processed, with an
anchor derived from `c` (its updated `node()`), and a failure of `c` ends
the walk before any other entry is touched. -/
theorem render_walk_right_to_left (C N E W : Type) (ops : DOMPatchOps C N E W)
    (parent : N) (l : List C) (c : C) (next : Option N) (w : W) :
    renderAux ops parent (l ++ [c]) next w =
      (match ops.render_walk c parent next w with
       | (w1, c1, Except.error e) => (w1, l ++ [c1], Except.error e)
       | (w1, c1, Except.ok _) =>
         ((renderAux ops parent l (ops.node c1) w1).1,
          (renderAux ops parent l (ops.node c1) w1).2.1 ++ [c1],
          (renderAux ops parent l (ops.node c1) w1).2.2)) := by
  rw [renderAux_append]
  rcases h : ops.render_walk c parent next w with ⟨w1, c1, r⟩
  cases r with
  | error e => simp [renderAux, h]
  | ok u =>
    simp only [renderAux, h]

/-- C5: `patch` with no `old` is exactly the render walk with each entry's
`patch(None, …)` substituted for its `render_walk`; whenever those two
child operations agree, `patch(None, …)` and `render_walk` agree at the
list level for every list, parent, anchor, and world. -/
theorem patch_none_equiv_render_walk (C N E W : Type)
    (ops : DOMPatchOps C N E W) (vl : List C) (parent : N) (next : Option N)
    (w : W) :
    patch ops vl none parent next w =
      render_walk (patchAsRenderOps ops) vl parent next w ∧
    ((∀ (c : C) (p : N) (nx : Option N) (w' : W),
        ops.patch c none p nx w' = ops.render_walk c p nx w') →
      patch ops vl none parent next w = render_walk ops vl parent next w) := by
  have h1 : patch ops vl none parent next w =
      render_walk (patchAsRenderOps ops) vl parent next w := by
    simp only [patch, render_walk, patchNoneAux_eq_renderAux]
  refine ⟨h1, fun hyp => ?_⟩
  have hops : patchAsRenderOps ops = ops := by
    cases ops
    simp only [patchAsRenderOps]
    congr 1
    funext c p nx w'
    exact hyp c p nx w'
  rw [h1, hops]

/-- C5 witness: with `anchorOps`, whose `patch` ignores its previous-node
argument, the two operations coincide on a concrete list. -/
theorem patch_none_equiv_render_walk_witness :
    patch anchorOps [(3, true)] none 7 none [] =
      render_walk anchorOps [(3, true)] 7 none [] :=
  (patch_none_equiv_render_walk (Nat × Bool) Nat Unit (List (Nat × Option Nat))
    anchorOps [(3, true)] 7 none []).2 (fun _ _ _ _ => rfl)

/-- C6: in each of the three operations, the first child failure ends the
traversal: the entries that would have been processed afterwards are not
touched (they appear unchanged, and neither the world nor the old-list
state reflects them), the error is returned unchanged, and the world of the
failure — which contains the mutations of the already-processed entries —
is returned as is, with nothing rolled back. -/
theorem error_propagation (C N E W : Type) (ops : DOMPatchOps C N E W)
    (parent : N) :
    (∀ (l₁ : List C) (c : C) (l₂ : List C) (next : Option N) (w w1 : W)
       (l₂' : List C) (next1 : Option N) (w2 : W) (c1 : C) (e : E),
      renderAux ops parent l₂ next w = (w1, l₂', Except.ok next1) →
      ops.render_walk c parent next1 w1 = (w2, c1, Except.error e) →
      renderAux ops parent (l₁ ++ c :: l₂) next w =
        (w2, l₁ ++ c1 :: l₂', Except.error e)) ∧
    (∀ (old_len s : Nat) (l₁ l₂ old : List C) (next : Option N) (w w1 : W)
       (l₂' old1 : List C) (e : E),
      patchOldAux ops parent old_len (s + l₁.length) l₂ old next w =
        (w1, l₂', old1, Except.error e) →
      patchOldAux ops parent old_len s (l₁ ++ l₂) old next w =
        (w1, l₁ ++ l₂', old1, Except.error e)) ∧
    (∀ (l₁ : List C) (c : C) (l₂ : List C) (next : Option N) (w w1 : W)
       (l₂' : List C) (next1 : Option N) (w2 : W) (c1 : C) (e : E),
      patchNoneAux ops parent l₂ next w = (w1, l₂', Except.ok next1) →
      ops.patch c none parent next1 w1 = (w2, c1, Except.error e) →
      patchNoneAux ops parent (l₁ ++ c :: l₂) next w =
        (w2, l₁ ++ c1 :: l₂', Except.error e)) ∧
    (∀ (l₁ l₂ : List C) (w w1 : W) (e : E),
      remove ops l₁ parent w = (w1, Except.error e) →
      remove ops (l₁ ++ l₂) parent w = (w1, Except.error e)) := by
  refine ⟨fun l₁ c l₂ next w w1 l₂' next1 w2 c1 e h1 h2 =>
            renderAux_error_mid ops parent l₁ c l₂ next w w1 l₂' next1 w2 c1 e h1 h2,
          fun old_len s l₁ l₂ old next w w1 l₂' old1 e h =>
            patchOldAux_error_append ops parent old_len s l₁ l₂ old next w w1 l₂' old1 e h,
          fun l₁ c l₂ next w w1 l₂' next1 w2 c1 e h1 h2 =>
            patchNoneAux_error_mid ops parent l₁ c l₂ next w w1 l₂' next1 w2 c1 e h1 h2,
          fun l₁ l₂ w w1 e h => ?_⟩
  rw [remove_append, h]

/-- C6 witness: under `failOps` (child 13 always fails with error 42),
each traversal stops at child 13 with error 42, keeping child 7's mutation
and leaving child 1 untouched. -/
theorem error_propagation_witness :
    renderAux failOps 9 ([1] ++ 13 :: [7]) none [] =
      ([7], [1] ++ 13 :: [7], Except.error 42) ∧
    patchOldAux failOps 9 0 0 ([1] ++ [13]) [] none [] =
      ([], [1] ++ [13], [], Except.error 42) ∧
    patchNoneAux failOps 9 ([1] ++ 13 :: [7]) none [] =
      ([7], [1] ++ 13 :: [7], Except.error 42) ∧
    remove failOps ([13] ++ [7]) 9 [] = ([], Except.error 42) :=
  ⟨(error_propagation Nat Nat Nat (List Nat) failOps 9).1
     [1] 13 [7] none [] [7] [7] (some 7) [7] 13 42 rfl rfl,
   (error_propagation Nat Nat Nat (List Nat) failOps 9).2.1
     0 0 [1] [13] [] none [] [] [13] [] 42 rfl,
   (error_propagation Nat Nat Nat (List Nat) failOps 9).2.2.1
     [1] 13 [7] none [] [7] [7] (some 7) [7] 13 42 rfl rfl,
   (error_propagation Nat Nat Nat (List Nat) failOps 9).2.2.2
     [13] [7] [] [] 42 rfl⟩

/-- C7: `remove` invokes the `remove` of every contained entry exactly once
and in the original left-to-right order — under the recording instantiation
the world grows by exactly the list itself — and, over an appended list,
the left part runs to completion before the right part starts. -/
theorem remove_all_in_order :
    (∀ (A B : Type) (l : List A) (parent : B) (w : List A),
      remove (removeTraceOps A B) l parent w = (w ++ l, Except.ok ())) ∧
    (∀ (A B D V : Type) (ops : DOMPatchOps A B D V) (l₁ l₂ : List A)
       (parent : B) (w : V),
      remove ops (l₁ ++ l₂) parent w =
        match remove ops l₁ parent w with
        | (w1, Except.error e) => (w1, Except.error e)
        | (w1, Except.ok _) => remove ops l₂ parent w1) := by
  constructor
  · intro A B l parent w
    induction l generalizing w with
    | nil => simp [remove]
    | cons c rest ih =>
      have hr : (removeTraceOps A B).remove c parent w = (w ++ [c], Except.ok ()) := rfl
      simp only [remove, hr]
      rw [ih]
      simp
  · intro A B D V ops l₁ l₂ parent w
    exact remove_append ops l₁ l₂ parent w

/-- C8: a list's `node()` is its first entry's `node()`: it is `none`
exactly when the list is empty or the first entry's own `node()` is `none`,
and the entries after the first never influence the result. -/
theorem node_first_entry (C N E W : Type) (ops : DOMPatchOps C N E W)
    (vl : List C) :
    (vl = [] → node ops vl = none) ∧
    (∀ (c : C) (rest : List C), vl = c :: rest → node ops vl = ops.node c) ∧
    (node ops vl = none ↔
      vl = [] ∨ ∃ c rest, vl = c :: rest ∧ ops.node c = none) := by
  refine ⟨fun h => by simp [node, h], fun c rest h => by simp [node, h], ?_⟩
  cases vl with
  | nil => simp [node]
  | cons c rest => simp [node]

/-- C8 witness: on `[(1,false),(2,true)]` the result is the first entry's
`node()` — the second entry does not matter. -/
theorem node_first_entry_witness :
    node anchorOps [(1, false), (2, true)] = anchorOps.node (1, false) :=
  (node_first_entry (Nat × Bool) Nat Unit (List (Nat × Option Nat)) anchorOps
    [(1, false), (2, true)]).2.1 (1, false) [(2, true)] rfl

/-- C9: the display of a list is the separator-free concatenation, in
sequence order, of its entries' own displays; in particular the example
list of a text node `First of the node` and a childless `input` element
displays as `First of the node<input>`. -/
theorem display_concat :
    (∀ (C N E W : Type) (ops : DOMPatchOps C N E W) (vl : List C),
      display ops vl = String.join (vl.map ops.disp)) ∧
    display displayOps [VNodeM.text "First of the node", VNodeM.childless "input"] =
      "First of the node<input>" := by
  constructor
  · intro C N E W ops vl
    induction vl with
    | nil => rfl
    | cons c rest ih => rw [display, List.map_cons, string_join_cons, ih]
  · rfl

/-- C10: under the recording instantiation, a patch against old list `O`
consumes every old entry exactly once: the patch calls consume, as
`some prev`, exactly the original entries at positions `< vl.length`
(visited right to left), the trailing cleanup removes exactly
`O.drop vl.length` — the rest — and the two parts partition `O`; when the
new list is at least as long as the old one, the cleanup removes
nothing. -/
theorem patch_consumes_old_once (vl O : List Nat) (parent : Nat)
    (next : Option Nat) :
    patch traceOps vl (some O) parent next [] =
      (expPatchTrace O 0 vl ++ (O.drop vl.length).map TraceEv.removeEv, vl,
       Except.ok ()) ∧
    consumedPrevs (expPatchTrace O 0 vl) = (O.take vl.length).reverse ∧
    O.take vl.length ++ O.drop vl.length = O ∧
    (O.length ≤ vl.length → (O.drop vl.length).map TraceEv.removeEv = []) := by
  refine ⟨?_, ?_, List.take_append_drop _ _, fun h => by
    rw [List.drop_of_length_le h]; rfl⟩
  · simp only [patch, patchOldAux_trace]
    cases vl with
    | nil => simp [remove_trace]
    | cons c rest => simp [remove_trace]
  · rw [consumedPrevs_expPatchTrace]
    simp

/-- C10 witness: a new list `[5, 6]` at least as long as the old `[10]`
leaves nothing for the cleanup to remove. -/
theorem patch_consumes_old_once_witness :
    ([10] : List Nat).length ≤ [5, 6].length ∧
    (([10] : List Nat).drop [5, 6].length).map TraceEv.removeEv = [] :=
  ⟨by decide, (patch_consumes_old_once [5, 6] [10] 9 none).2.2.2 (by decide)⟩

end VList
